import Mathlib

/-!
Verification of ChromaMonitor (`src/chroma_monitor/`) against its
natural-language specification.

The Python source is shallowly embedded: pure computations become Lean
functions over `ℕ`/`ℤ`/`ℚ` and lists, stateful worker code becomes explicit
state-passing step functions, and fallible code returns `Option`/`Except`.
NumPy floating-point arithmetic is idealised as exact rational arithmetic
(`ℚ`); 8-bit pixel data is `ℕ`/`Fin` valued, as the arrays in the source are
`uint8`.
-/

namespace ChromaMonitor

/-! ## Change-detection emit decision (`AnalyzerWorker._should_emit_in_change_mode`)

The worker state mirrors the fields of `AnalyzerWorker` used by the change
mode: `_prev_h/_prev_s/_prev_v` presence is abstracted to a single Boolean
`prevSet` (they are set and cleared together), `_stable_frames`,
`_was_stable`, `_force_emit_once` and `_cooldown_until`.  The per-frame
change metric (a mean of absolute HSV differences of the two downscaled
frames) is abstracted to its rational value `metric`, and the shape
comparison of the previous planes with the current ones to `shapeOk`. -/

structure ChangeCfg where
  diffThreshold : ℚ
  stableFrames : ℕ
deriving Repr, DecidableEq

structure ChangeState where
  prevSet : Bool
  stableCount : ℕ
  wasStable : Bool
  forceEmitOnce : Bool
  cooldownUntil : ℚ
deriving Repr, DecidableEq

/-- Embedding of `AnalyzerWorker._should_emit_in_change_mode`
(`src/chroma_monitor/analyzer.py`, lines 725-760).  Returns the emit
decision together with the updated worker state.  Note that the source's
initial assignment `emit_now = now >= self._cooldown_until` is overwritten
on every control-flow path before being read, which the embedding mirrors
with the dead binding `_emitNowDead`. -/
def shouldEmitInChangeMode (cfg : ChangeCfg) (st : ChangeState)
    (shapeOk : Bool) (metric : ℚ) (now : ℚ) : Bool × ChangeState :=
  let _emitNowDead : Bool := decide (now ≥ st.cooldownUntil)
  let branch : Bool × ℕ × Bool :=
    if st.prevSet = false ∨ shapeOk = false then
      (false, 0, false)
    else
      let stable1 : ℕ := if metric < cfg.diffThreshold then st.stableCount + 1 else 0
      let wasStable1 : Bool := if metric < cfg.diffThreshold then st.wasStable else false
      let e : Bool := decide (stable1 ≥ cfg.stableFrames) && !wasStable1
      (e, stable1, if e then true else wasStable1)
  let emitNow : Bool := if st.forceEmitOnce then true else branch.1
  (emitNow,
    { prevSet := true
      stableCount := branch.2.1
      wasStable := branch.2.2
      forceEmitOnce := false
      cooldownUntil := st.cooldownUntil })

/-- C1: the spec requires the change-mode emit decision to be false whenever
`now < cooldown_until` (absent a forced emission), but the code overwrites
the cooldown test on every path: with stability reached (`stable_frames = 1`,
one stable cycle, metric `0` below threshold `1`), no pending forced
emission, and `now = 0 < 10 = cooldown_until`, the code still decides to
emit. -/
theorem shouldEmitInChangeMode_ignores_cooldown :
    (shouldEmitInChangeMode ⟨1, 1⟩ ⟨true, 0, false, false, 10⟩ true 0 0).1 = true ∧
      (0 : ℚ) < 10 := by
  constructor
  · decide
  · norm_num

/-! ## Single-slot in-flight publishing (`AnalyzerWorker._run` /
`AnalyzerWorker.mark_result_consumed`)

The publishing protocol of the worker loop is embedded as a step relation.
A `cycle w` event is one iteration of the `_run` loop reaching the emit
stage, where `w` is the value of
`emit_now and (need_bgr_emit or (graph_update and need_graph_data))`
for that iteration; the iteration publishes (sets `_result_inflight` and
emits `resultReady`) only when `w` holds and the flag is clear, and
otherwise drops the cycle's result.  A `consume` event is a call to
`mark_result_consumed`, which clears the flag; the ghost field `unacked`
counts results published but not yet acknowledged. -/

structure InflightState where
  inflight : Bool
  unacked : ℕ
deriving Repr, DecidableEq

inductive WorkerEvent where
  | cycle (wantPublish : Bool)
  | consume
deriving Repr, DecidableEq

/-- One step of the publishing protocol of `AnalyzerWorker._run`
(`src/chroma_monitor/analyzer.py`, lines 886-917) and
`AnalyzerWorker.mark_result_consumed` (lines 221-222). -/
def inflightStep (s : InflightState) : WorkerEvent → InflightState
  | .cycle w => if w && !s.inflight then ⟨true, s.unacked + 1⟩ else s
  | .consume => ⟨false, 0⟩

/-- Iterated worker steps. -/
def inflightRun (s : InflightState) : List WorkerEvent → InflightState
  | [] => s
  | e :: es => inflightRun (inflightStep s e) es

/-- Initial state: `start` clears `_result_inflight`, nothing published. -/
def inflightInit : InflightState := ⟨false, 0⟩

lemma inflight_inv (es : List WorkerEvent) :
    ∀ s : InflightState, s.unacked ≤ (if s.inflight then 1 else 0) →
      (inflightRun s es).unacked ≤ (if (inflightRun s es).inflight then 1 else 0) := by
  induction es with
  | nil => intro s hs; simpa [inflightRun] using hs
  | cons e es ih =>
    intro s hs
    refine ih (inflightStep s e) ?_
    cases e with
    | cycle w =>
      cases w with
      | false => simpa [inflightStep] using hs
      | true =>
        cases hi : s.inflight with
        | false =>
          have h0 : s.unacked = 0 := by simpa [hi] using hs
          simp [inflightStep, hi, h0]
        | true => simpa [inflightStep, hi] using hs
    | consume => simp [inflightStep]

/-- C2: for every sequence of worker-loop cycles and `mark_result_consumed`
calls from the initial state, the number of published-but-unacknowledged
results never exceeds one; moreover a cycle increases that number only when
the in-flight flag was clear, and it sets the flag in the same step. -/
theorem inflight_at_most_one (es : List WorkerEvent) :
    (inflightRun inflightInit es).unacked ≤ 1 ∧
      (∀ s : InflightState, ∀ w : Bool,
        (inflightStep s (.cycle w)).unacked = s.unacked + 1 →
          s.inflight = false ∧ (inflightStep s (.cycle w)).inflight = true) := by
  constructor
  · have h := inflight_inv es inflightInit (by simp [inflightInit])
    rcases hi : (inflightRun inflightInit es).inflight <;> simp [hi] at h <;> omega
  · intro s w h
    cases w with
    | false => simp [inflightStep] at h
    | true =>
      cases hi : s.inflight with
      | false => simp [inflightStep, hi]
      | true => simp [inflightStep, hi] at h

/-! ## Hue-wheel statistics (`_compute_wheel_stats`,
`src/chroma_monitor/analysis/frame_analysis.py`, lines 75-93)

The analysis pipeline converts the frame to 8-bit HSV (hue in `[0,180)`),
builds `wheel_mask = s >= sat_th` and passes `h_wheel = h[wheel_mask]` to
`_compute_wheel_stats`.  A pixel is embedded by its hue and saturation, the
source's NumPy float arithmetic by exact `ℚ` arithmetic. -/

structure HsvPix where
  hue : Fin 180
  sat : ℕ
deriving Repr, DecidableEq

/-- The wheel-eligible hues of a frame: `h[s >= sat_th]`. -/
def wheelHues (frame : List HsvPix) (satTh : ℕ) : List (Fin 180) :=
  (frame.filter (fun p => satTh ≤ p.sat)).map (fun p => p.hue)

/-- `hist_raw = np.bincount(h_wheel, minlength=180)` (hues are `< 180`, so
the histogram has exactly 180 bins). -/
def wheelRawHist (hs : List (Fin 180)) (b : Fin 180) : ℕ := hs.count b

/-- Numerator of the circularly smoothed histogram bin: the source pads the
raw histogram with two bins of wrap-around on each side and convolves with
`_WHEEL_SMOOTH_KERNEL = [1,2,3,2,1]/9` in `"valid"` mode, so bin `b` becomes
`(raw[b-2] + 2*raw[b-1] + 3*raw[b] + 2*raw[b+1] + raw[b+2]) / 9` with index
arithmetic modulo 180. -/
def wheelSmoothNumer (hs : List (Fin 180)) (b : Fin 180) : ℕ :=
  wheelRawHist hs (b - 2) + 2 * wheelRawHist hs (b - 1) + 3 * wheelRawHist hs b +
    2 * wheelRawHist hs (b + 1) + wheelRawHist hs (b + 2)

/-- The smoothed histogram before the `astype(np.int64)` truncation. -/
def wheelSmoothQ (hs : List (Fin 180)) (b : Fin 180) : ℚ := (wheelSmoothNumer hs b : ℚ) / 9

/-- The smoothed histogram as returned (`astype(np.int64)` truncates the
non-negative convolution output toward zero, i.e. floors it). -/
def wheelSmoothInt (hs : List (Fin 180)) (b : Fin 180) : ℕ := wheelSmoothNumer hs b / 9

/-- `warm_count = hist_raw[:30].sum() + hist_raw[150:180].sum()`. -/
def warmCount (hs : List (Fin 180)) : ℕ :=
  (∑ b ∈ Finset.univ.filter (fun b : Fin 180 => b.val < 30), wheelRawHist hs b) +
    ∑ b ∈ Finset.univ.filter (fun b : Fin 180 => 150 ≤ b.val), wheelRawHist hs b

/-- `cool_count = hist_raw[75:135].sum()`. -/
def coolCount (hs : List (Fin 180)) : ℕ :=
  ∑ b ∈ Finset.univ.filter (fun b : Fin 180 => 75 ≤ b.val ∧ b.val < 135), wheelRawHist hs b

/-- Embedding of `_compute_wheel_stats`: returns the smoothed histogram and
the warm/cool/other fractions of the wheel-eligible population; all four are
zero histogram/ratios when `h_wheel` is empty. -/
def computeWheelStats (hs : List (Fin 180)) : (Fin 180 → ℕ) × ℚ × ℚ × ℚ :=
  if hs = [] then (fun _ => 0, 0, 0, 0)
  else
    let total : ℚ := hs.length
    let warm : ℚ := warmCount hs
    let cool : ℚ := coolCount hs
    let other : ℚ := max 0 (total - warm - cool)
    (wheelSmoothInt hs, warm / total, cool / total, other / total)

lemma sum_count_filter (p : Fin 180 → Prop) [DecidablePred p] (l : List (Fin 180)) :
    ∑ b ∈ Finset.univ.filter p, l.count b = (l.filter (fun b => decide (p b))).length := by
  induction l with
  | nil => simp
  | cons a l ih =>
    have hcount : ∀ b : Fin 180, (a :: l).count b = l.count b + if b = a then 1 else 0 := by
      intro b
      by_cases h : b = a
      · subst h; simp [List.count_cons]
      · have h' : ¬ a = b := fun hh => h hh.symm
        simp [List.count_cons, h, h']
    simp only [hcount, Finset.sum_add_distrib, ih, Finset.sum_ite_eq', Finset.mem_filter,
      Finset.mem_univ, true_and]
    by_cases hpa : p a <;> simp [hpa, List.filter_cons]

lemma sum_count_univ (l : List (Fin 180)) : ∑ b : Fin 180, l.count b = l.length := by
  have h := sum_count_filter (fun _ => True) l
  simpa using h

lemma sum_rawHist_sub (l : List (Fin 180)) (c : Fin 180) :
    ∑ b : Fin 180, wheelRawHist l (b - c) = l.length := by
  have h := Equiv.sum_comp (Equiv.subRight c) (wheelRawHist l)
  simpa [wheelRawHist, sum_count_univ l] using h

lemma sum_rawHist_add (l : List (Fin 180)) (c : Fin 180) :
    ∑ b : Fin 180, wheelRawHist l (b + c) = l.length := by
  have h := Equiv.sum_comp (Equiv.addRight c) (wheelRawHist l)
  simpa [wheelRawHist, sum_count_univ l] using h

lemma sum_smoothNumer (l : List (Fin 180)) :
    ∑ b : Fin 180, wheelSmoothNumer l b = 9 * l.length := by
  simp only [wheelSmoothNumer, Finset.sum_add_distrib, ← Finset.mul_sum,
    sum_rawHist_sub, sum_rawHist_add]
  have h := sum_count_univ l
  simp only [wheelRawHist, h]
  ring

/-- C4: for every frame and saturation threshold, the raw hue-wheel
histogram over the wheel-eligible hues sums exactly to the number of pixels
with saturation at or above the threshold; the circular `[1,2,3,2,1]/9`
smoothing preserves total mass exactly in rational arithmetic, and the
integer-truncated histogram that the function returns is within 180 (one
unit per bin) of the same total. -/
theorem computeWheelStats_mass (frame : List HsvPix) (satTh : ℕ) :
    (∑ b : Fin 180, wheelRawHist (wheelHues frame satTh) b =
        (frame.filter (fun p => satTh ≤ p.sat)).length) ∧
      (∑ b : Fin 180, wheelSmoothQ (wheelHues frame satTh) b =
        ((frame.filter (fun p => satTh ≤ p.sat)).length : ℚ)) ∧
      (∑ b : Fin 180, wheelSmoothInt (wheelHues frame satTh) b ≤
          (wheelHues frame satTh).length ∧
        (wheelHues frame satTh).length ≤
          (∑ b : Fin 180, wheelSmoothInt (wheelHues frame satTh) b) + 180) := by
  have hlen : (wheelHues frame satTh).length = (frame.filter (fun p => satTh ≤ p.sat)).length := by
    simp [wheelHues]
  refine ⟨?_, ?_, ?_, ?_⟩
  · rw [← hlen]
    exact sum_count_univ _
  · rw [← hlen]
    have hnum := sum_smoothNumer (wheelHues frame satTh)
    simp only [wheelSmoothQ, ← Finset.sum_div]
    rw [← Nat.cast_sum, hnum]
    push_cast
    ring
  · have hle : ∀ b : Fin 180, wheelSmoothNumer (wheelHues frame satTh) b / 9 * 9 ≤
        wheelSmoothNumer (wheelHues frame satTh) b := fun b => Nat.div_mul_le_self _ 9
    have hmul : (∑ b : Fin 180, wheelSmoothInt (wheelHues frame satTh) b) * 9 =
        ∑ b : Fin 180, wheelSmoothNumer (wheelHues frame satTh) b / 9 * 9 := by
      rw [Finset.sum_mul]
      simp [wheelSmoothInt]
    have hsum : (∑ b : Fin 180, wheelSmoothInt (wheelHues frame satTh) b) * 9 ≤
        9 * (wheelHues frame satTh).length := by
      rw [hmul, ← sum_smoothNumer (wheelHues frame satTh)]
      exact Finset.sum_le_sum fun b _ => hle b
    omega
  · have hge : ∀ b : Fin 180, wheelSmoothNumer (wheelHues frame satTh) b ≤
        wheelSmoothNumer (wheelHues frame satTh) b / 9 * 9 + 8 := by
      intro b
      have h1 := Nat.div_add_mod (wheelSmoothNumer (wheelHues frame satTh) b) 9
      have h2 := Nat.mod_lt (wheelSmoothNumer (wheelHues frame satTh) b) (show 0 < 9 by norm_num)
      omega
    have hsum : ∑ b : Fin 180, wheelSmoothNumer (wheelHues frame satTh) b ≤
        ∑ b : Fin 180, (wheelSmoothNumer (wheelHues frame satTh) b / 9 * 9 + 8) :=
      Finset.sum_le_sum fun b _ => hge b
    rw [sum_smoothNumer] at hsum
    have hexp : ∑ b : Fin 180, (wheelSmoothNumer (wheelHues frame satTh) b / 9 * 9 + 8) =
        (∑ b : Fin 180, wheelSmoothInt (wheelHues frame satTh) b) * 9 + 180 * 8 := by
      rw [Finset.sum_add_distrib, Finset.sum_const, ← Finset.sum_mul]
      simp [wheelSmoothInt]
    rw [hexp] at hsum
    omega

/-- The warm hue set of the spec: `[0,30) ∪ [150,180)` (in 2°-wide bins). -/
def isWarmHue (b : Fin 180) : Bool := decide (b.val < 30) || decide (150 ≤ b.val)

/-- The cool hue set of the spec: `[75,135)`. -/
def isCoolHue (b : Fin 180) : Bool := decide (75 ≤ b.val) && decide (b.val < 135)

lemma warm_filter_split (l : List (Fin 180)) :
    (l.filter isWarmHue).length =
      (l.filter (fun b => decide (b.val < 30))).length +
        (l.filter (fun b => decide (150 ≤ b.val))).length := by
  induction l with
  | nil => rfl
  | cons a l ih =>
    by_cases ha : a.val < 30
    · have hb : ¬ (150 ≤ a.val) := by omega
      simp [List.filter_cons, isWarmHue, ha, hb, ih]
      omega
    · by_cases hb : 150 ≤ a.val <;>
        simp [List.filter_cons, isWarmHue, ha, hb, ih] <;> omega

lemma warmCount_eq_filter (hs : List (Fin 180)) :
    warmCount hs = (hs.filter isWarmHue).length := by
  have h1 := sum_count_filter (fun b : Fin 180 => b.val < 30) hs
  have h2 := sum_count_filter (fun b : Fin 180 => 150 ≤ b.val) hs
  simp only [warmCount, wheelRawHist]
  rw [h1, h2, warm_filter_split]

lemma coolCount_eq_filter (hs : List (Fin 180)) :
    coolCount hs = (hs.filter isCoolHue).length := by
  have h := sum_count_filter (fun b : Fin 180 => 75 ≤ b.val ∧ b.val < 135) hs
  simp only [coolCount, wheelRawHist]
  rw [h]
  have hfun : ∀ b ∈ hs, (decide (75 ≤ b.val ∧ b.val < 135)) = isCoolHue b := by
    intro b _
    by_cases h1 : 75 ≤ b.val <;> by_cases h2 : b.val < 135 <;> simp [isCoolHue, h1, h2]
  rw [List.filter_congr hfun]

lemma warm_cool_le_length (hs : List (Fin 180)) :
    warmCount hs + coolCount hs ≤ hs.length := by
  rw [warmCount_eq_filter, coolCount_eq_filter]
  induction hs with
  | nil => simp
  | cons a l ih =>
    by_cases h1 : isWarmHue a = true
    · have h2 : isCoolHue a = false := by
        simp only [isWarmHue, Bool.or_eq_true, decide_eq_true_eq] at h1
        simp only [isCoolHue, Bool.and_eq_false_iff, decide_eq_false_iff_not]
        omega
      simp only [List.filter_cons, h1, h2, if_true, Bool.false_eq_true, if_false,
        List.length_cons]
      omega
    · by_cases h2 : isCoolHue a = true <;>
        simp only [List.filter_cons, h1, h2, Bool.false_eq_true, if_false, if_true,
          List.length_cons] <;> omega

/-- C5: the warm count is exactly the number of wheel-eligible hues in
`[0,30) ∪ [150,180)` and the cool count exactly that in `[75,135)`; on a
non-empty wheel-eligible population the warm, cool and other ratios sum to
`1` exactly, and on an empty one all three ratios are `0`. -/
theorem computeWheelStats_ratios (hs : List (Fin 180)) :
    warmCount hs = (hs.filter isWarmHue).length ∧
      coolCount hs = (hs.filter isCoolHue).length ∧
      (hs ≠ [] →
        (computeWheelStats hs).2.1 + (computeWheelStats hs).2.2.1 +
            (computeWheelStats hs).2.2.2 = 1) ∧
      (hs = [] →
        (computeWheelStats hs).2.1 = 0 ∧ (computeWheelStats hs).2.2.1 = 0 ∧
          (computeWheelStats hs).2.2.2 = 0) := by
  refine ⟨warmCount_eq_filter hs, coolCount_eq_filter hs, ?_, ?_⟩
  · intro hne
    have hlen : 0 < hs.length := List.length_pos.mpr hne
    have htotal : ((hs.length : ℚ)) ≠ 0 := by positivity
    have hwc : (warmCount hs : ℚ) + (coolCount hs : ℚ) ≤ (hs.length : ℚ) := by
      have := warm_cool_le_length hs
      exact_mod_cast this
    have hmax : max 0 ((hs.length : ℚ) - warmCount hs - coolCount hs) =
        (hs.length : ℚ) - warmCount hs - coolCount hs := by
      rw [max_eq_right]
      linarith
    simp only [computeWheelStats, hne, if_false]
    rw [hmax, div_add_div_same, div_add_div_same]
    field_simp
  · intro he
    simp [computeWheelStats, he]

/-- Witness for `computeWheelStats_ratios`: the ratios sum to `1` on the
singleton hue list `[0]` and are all `0` on the empty list. -/
theorem computeWheelStats_ratios_witness :
    ((computeWheelStats [(0 : Fin 180)]).2.1 + (computeWheelStats [(0 : Fin 180)]).2.2.1 +
        (computeWheelStats [(0 : Fin 180)]).2.2.2 = 1) ∧
      ((computeWheelStats ([] : List (Fin 180))).2.1 = 0 ∧
        (computeWheelStats ([] : List (Fin 180))).2.2.1 = 0 ∧
        (computeWheelStats ([] : List (Fin 180))).2.2.2 = 0) :=
  ⟨(computeWheelStats_ratios [(0 : Fin 180)]).2.2.1 (by simp),
    (computeWheelStats_ratios ([] : List (Fin 180))).2.2.2 rfl⟩

/-! ## Top colors (`_compute_top_colors`,
`src/chroma_monitor/analysis/frame_analysis.py`, lines 96-133)

`_compute_top_colors` receives the frame, `h_wheel = h[wheel_mask]` and
`wheel_mask`; it pairs `h_wheel` with `bgr[wheel_mask][:, ::-1]` (the RGB
triples of the same pixels in the same row-major order), so the input is
embedded as the list of wheel-eligible pixels, each carrying its hue and RGB
triple.  Segment indexing uses `_TOP_COLOR_SEGMENT_SIZE = 10` bins (20°) and
`_TOP_COLOR_SEGMENT_COUNT = 18` segments; `C.TOP_COLORS_COUNT = 5`.

`np.argsort(seg_counts)` (default quicksort kind) sorts ascending but leaves
the relative order of equal counts unspecified; it is modelled here by a
stable insertion sort, one deterministic representative of that contract.
The claim-deciding counterexample below was chosen at an input where NumPy's
actual introsort provably produces the same order as this model. -/

structure RgbPix where
  hue : Fin 180
  r : ℕ
  g : ℕ
  b : ℕ
deriving Repr, DecidableEq

/-- `seg_idx = h_wheel // 10` for one pixel. -/
def segIdx (p : RgbPix) : ℕ := p.hue.val / 10

/-- The wheel-eligible pixels falling in segment `i`. -/
def segPixels (px : List RgbPix) (i : ℕ) : List RgbPix :=
  px.filter (fun p => decide (segIdx p = i))

/-- `seg_counts[i] = np.bincount(seg_idx, minlength=18)[i]`. -/
def segCount (px : List RgbPix) (i : ℕ) : ℕ := (segPixels px i).length

/-- `sum_r[i]`: per-segment sum of the red channel (`np.bincount` with
weights). -/
def segSumR (px : List RgbPix) (i : ℕ) : ℕ := ((segPixels px i).map (fun p => p.r)).sum

/-- `sum_g[i]`. -/
def segSumG (px : List RgbPix) (i : ℕ) : ℕ := ((segPixels px i).map (fun p => p.g)).sum

/-- `sum_b[i]`. -/
def segSumB (px : List RgbPix) (i : ℕ) : ℕ := ((segPixels px i).map (fun p => p.b)).sum

/-- Model of `np.argsort(counts)` on the index list `0..n-1`, ascending by
count (stable; NumPy's default unstable quicksort leaves the order of equal
counts unspecified, and the stable order is one valid representative). -/
def argsortAsc (counts : ℕ → ℕ) (n : ℕ) : List ℕ :=
  List.insertionSort (fun i j => counts i ≤ counts j) (List.range n)

/-- `top5_idx = [i for i in np.argsort(seg_counts)[::-1] if seg_counts[i] > 0][:5]`. -/
def topSegments (px : List RgbPix) : List ℕ :=
  (((argsortAsc (segCount px) 18).reverse).filter (fun i => decide (0 < segCount px i))).take 5

/-- Embedding of `_compute_top_colors`: the returned `(ratio, (r, g, b))`
list, with `ratio = cnt / top_sum` in exact rational arithmetic and the RGB
means truncated to integers (`int()` floors the non-negative quotients). -/
def computeTopColors (px : List RgbPix) : List (ℚ × ℕ × ℕ × ℕ) :=
  if px = [] then []
  else
    let top5 := topSegments px
    let topSum : ℚ := ((top5.map (segCount px)).sum : ℕ)
    top5.map (fun s =>
      ((segCount px s : ℚ) / topSum,
        segSumR px s / segCount px s, segSumG px s / segCount px s,
        segSumB px s / segCount px s))

lemma list_mem_le_sum (l : List ℕ) (a : ℕ) (h : a ∈ l) : a ≤ l.sum := by
  induction l with
  | nil => cases h
  | cons x l ih =>
    rcases List.mem_cons.mp h with h1 | h2
    · subst h1; simp [List.sum_cons]
    · have := ih h2
      simp only [List.sum_cons]
      omega

lemma list_sum_map_divQ (l : List ℕ) (c : ℚ) :
    (l.map (fun n : ℕ => (n : ℚ) / c)).sum = ((l.sum : ℕ) : ℚ) / c := by
  induction l with
  | nil => simp
  | cons x l ih =>
    simp only [List.map_cons, List.sum_cons, ih]
    rw [div_add_div_same]
    push_cast
    ring_nf

/-- C3 (counterexample): with one wheel-eligible pixel of hue 165 (segment
16) and one of hue 175 (segment 17), the two segments tie at count 1, yet
the returned order is `[17, 16]` — the tie is not broken by ascending
original segment index.  (NumPy's actual introsort on the corresponding
18-entry count array `[0,...,0,1,1]` also yields argsort ending `..., 16,
17`, hence the reversed order `[17, 16, ...]`.) -/
theorem computeTopColors_tie_not_ascending :
    topSegments [⟨(165 : Fin 180), 10, 20, 30⟩, ⟨(175 : Fin 180), 40, 50, 60⟩] = [17, 16] ∧
      segCount [⟨(165 : Fin 180), 10, 20, 30⟩, ⟨(175 : Fin 180), 40, 50, 60⟩] 16 =
        segCount [⟨(165 : Fin 180), 10, 20, 30⟩, ⟨(175 : Fin 180), 40, 50, 60⟩] 17 ∧
      ([17, 16] : List ℕ) ≠ [16, 17] := by
  refine ⟨by decide, by decide, by decide⟩

/-- C3 (amended): `_compute_top_colors` partitions hues into the 18 fixed
20°-wide segments (`segIdx p = i` iff `10 i ≤ hue < 10 (i+1)`, and always
`segIdx p < 18`); it returns at most 5 entries, exactly `min 5 (number of
non-empty segments)` of them, every returned segment is non-empty, the
segment counts are non-increasing along the returned order (ties broken in
an unspecified deterministic order, not necessarily by ascending index), on
non-empty input the returned ratios sum to exactly 1, and each entry is the
count ratio paired with the truncated per-channel mean over the
wheel-eligible pixels of that segment only. -/
theorem computeTopColors_spec (px : List RgbPix) :
    (computeTopColors px).length ≤ 5 ∧
      ((topSegments px).map (segCount px)).Sorted (fun a b => b ≤ a) ∧
      (∀ i ∈ topSegments px, 0 < segCount px i ∧ i < 18) ∧
      (topSegments px).length =
        min 5 ((List.range 18).countP (fun i => decide (0 < segCount px i))) ∧
      (px ≠ [] → ((computeTopColors px).map Prod.fst).sum = 1) ∧
      computeTopColors px = (topSegments px).map (fun s =>
        ((segCount px s : ℚ) / (((topSegments px).map (segCount px)).sum : ℕ),
          segSumR px s / segCount px s, segSumG px s / segCount px s,
          segSumB px s / segCount px s)) ∧
      (∀ p : RgbPix, segIdx p < 18 ∧
        ∀ i : ℕ, segIdx p = i ↔ 10 * i ≤ p.hue.val ∧ p.hue.val < 10 * (i + 1)) := by
  have hperm : (argsortAsc (segCount px) 18).reverse.Perm (List.range 18) :=
    ((argsortAsc (segCount px) 18).reverse_perm).trans
      (List.perm_insertionSort (fun i j => segCount px i ≤ segCount px j) (List.range 18))
  have hsub : List.Sublist (topSegments px)
      ((argsortAsc (segCount px) 18).reverse.filter (fun i => decide (0 < segCount px i))) :=
    List.take_sublist _ _
  have hC : ∀ i ∈ topSegments px, 0 < segCount px i ∧ i < 18 := by
    intro i hi
    have hi' := hsub.mem hi
    have h1 := (List.mem_filter.mp hi').2
    have h2 := (List.mem_filter.mp hi').1
    refine ⟨of_decide_eq_true h1, ?_⟩
    exact List.mem_range.mp (hperm.mem_iff.mp h2)
  refine ⟨?_, ?_, hC, ?_, ?_, ?_, ?_⟩
  · by_cases hne : px = []
    · simp [computeTopColors, hne]
    · simp only [computeTopColors, hne, if_false, List.length_map]
      simp only [topSegments]
      exact List.length_take_le _ _
  · haveI : IsTotal ℕ (fun i j => segCount px i ≤ segCount px j) := ⟨fun a b => le_total _ _⟩
    haveI : IsTrans ℕ (fun i j => segCount px i ≤ segCount px j) :=
      ⟨fun a b c hab hbc => le_trans hab hbc⟩
    have hsorted : (argsortAsc (segCount px) 18).Sorted
        (fun i j => segCount px i ≤ segCount px j) :=
      List.sorted_insertionSort _ _
    have hrev : (argsortAsc (segCount px) 18).reverse.Pairwise
        (fun i j => segCount px j ≤ segCount px i) := by
      rw [List.pairwise_reverse]
      exact hsorted
    have hpair : (topSegments px).Pairwise (fun i j => segCount px j ≤ segCount px i) :=
      hrev.sublist (hsub.trans (List.filter_sublist _))
    exact List.pairwise_map.mpr hpair
  · simp only [topSegments, List.length_take]
    rw [← List.countP_eq_length_filter]
    have hc := hperm.countP_eq (fun i => decide (0 < segCount px i))
    omega
  · intro hne
    have hne5 : topSegments px ≠ [] := by
      obtain ⟨p, hp⟩ := List.exists_mem_of_ne_nil px hne
      have hlt : segIdx p < 18 := by
        have := p.hue.isLt
        simp only [segIdx]
        omega
      have hcpos : 0 < segCount px (segIdx p) := by
        have hmem : p ∈ segPixels px (segIdx p) :=
          List.mem_filter.mpr ⟨hp, by simp⟩
        exact List.length_pos.mpr (List.ne_nil_of_mem hmem)
      have hmemf : segIdx p ∈
          (argsortAsc (segCount px) 18).reverse.filter
            (fun i => decide (0 < segCount px i)) := by
        refine List.mem_filter.mpr ⟨?_, by simpa using hcpos⟩
        exact hperm.mem_iff.mpr (List.mem_range.mpr hlt)
      simp only [topSegments, ne_eq, List.take_eq_nil_iff]
      push_neg
      exact ⟨by norm_num, List.ne_nil_of_mem hmemf⟩
    have hTpos : 0 < ((topSegments px).map (segCount px)).sum := by
      obtain ⟨s, hs⟩ := List.exists_mem_of_ne_nil _ hne5
      have h1 : 0 < segCount px s := (hC s hs).1
      have h2 : segCount px s ∈ (topSegments px).map (segCount px) :=
        List.mem_map_of_mem _ hs
      have := list_mem_le_sum _ _ h2
      omega
    have hmap : (computeTopColors px).map Prod.fst = (topSegments px).map
        (fun s => (segCount px s : ℚ) / (((topSegments px).map (segCount px)).sum : ℕ)) := by
      simp [computeTopColors, hne, List.map_map, Function.comp]
    rw [hmap]
    have hfuse : (topSegments px).map
        (fun s => (segCount px s : ℚ) / (((topSegments px).map (segCount px)).sum : ℕ)) =
        ((topSegments px).map (segCount px)).map
          (fun n : ℕ => (n : ℚ) / (((topSegments px).map (segCount px)).sum : ℕ)) := by
      rw [List.map_map]
      rfl
    rw [hfuse, list_sum_map_divQ]
    have hT0 : ((((topSegments px).map (segCount px)).sum : ℕ) : ℚ) ≠ 0 :=
      Nat.cast_ne_zero.mpr hTpos.ne'
    exact div_self hT0
  · by_cases hne : px = []
    · subst hne
      have hempty : topSegments [] = [] := by decide
      simp [computeTopColors, hempty]
    · simp [computeTopColors, hne]
  · intro p
    have hlt := p.hue.isLt
    constructor
    · simp only [segIdx]; omega
    · intro i
      simp only [segIdx]
      omega

/-- Witness for `computeTopColors_spec`: on a single wheel-eligible pixel of
hue 5 the ratios sum to 1, and segment 0 is returned non-empty. -/
theorem computeTopColors_spec_witness :
    ((computeTopColors [⟨(5 : Fin 180), 1, 2, 3⟩]).map Prod.fst).sum = 1 ∧
      (0 < segCount [⟨(5 : Fin 180), 1, 2, 3⟩] 0 ∧ (0 : ℕ) < 18) := by
  have h := computeTopColors_spec [⟨(5 : Fin 180), 1, 2, 3⟩]
  exact ⟨h.2.2.2.2.1 (by simp), h.2.2.1 0 (by decide)⟩

/-! ## Input normalization (`_normalize_bgr_to_float01`,
`src/chroma_monitor/analysis/frame_analysis.py`, lines 16-39)

The float path is embedded over a flat list of the array's values in exact
rational arithmetic; the claim restricts attention to non-empty all-finite
inputs, for which `np.nanmin`/`np.nanmax` are the plain minimum/maximum.
The integer path divides by the dtype's maximum. -/

/-- `np.clip(x, 0.0, 1.0)` pointwise. -/
def clip01 (x : ℚ) : ℚ := min 1 (max 0 x)

/-- `np.nanmin` of a non-empty all-finite array (0 on empty, unused). -/
def listMin : List ℚ → ℚ
  | [] => 0
  | x :: xs => xs.foldl min x

/-- `np.nanmax` of a non-empty all-finite array (0 on empty, unused). -/
def listMax : List ℚ → ℚ
  | [] => 0
  | x :: xs => xs.foldl max x

/-- Embedding of the float branch of `_normalize_bgr_to_float01`: if some
value lies outside `[0,1]`, divide by 255 when `0 <= min AND max <= 255`,
else divide by `max(1.0, max_v)`; finally clip to `[0,1]`. -/
def normalizeBgrFloat (l : List ℚ) : List ℚ :=
  if l = [] then []
  else
    let mn := listMin l
    let mx := listMax l
    let out :=
      if mn < 0 ∨ 1 < mx then
        if 0 ≤ mn ∧ mx ≤ 255 then l.map (fun x => x / 255)
        else l.map (fun x => x / max 1 mx)
      else l
    out.map clip01

/-- Embedding of the integer branch of `_normalize_bgr_to_float01`: divide
by `np.iinfo(dtype).max` (or 1 if that is not positive) and clip. -/
def normalizeBgrInt (dtypeMax : ℕ) (l : List ℤ) : List ℚ :=
  if l = [] then []
  else
    let scale : ℚ := if 0 < dtypeMax then (dtypeMax : ℚ) else 1
    (l.map (fun x => (x : ℚ) / scale)).map clip01

/-- Modelled from the claim's words (C6), for comparison with the source
embedding: for float inputs not contained in `[0,1]`, divide by 255 whenever
the observed maximum is `<= 255`, and otherwise divide by the observed
maximum. -/
def normalizeBgrFloatClaimed (l : List ℚ) : List ℚ :=
  if l = [] then []
  else
    let mn := listMin l
    let mx := listMax l
    let out :=
      if mn < 0 ∨ 1 < mx then
        if mx ≤ 255 then l.map (fun x => x / 255)
        else l.map (fun x => x / mx)
      else l
    out.map clip01

lemma foldl_min_le_init (ys : List ℚ) (a : ℚ) : ys.foldl min a ≤ a := by
  induction ys generalizing a with
  | nil => exact le_refl a
  | cons z zs ih => exact le_trans (ih (min a z)) (min_le_left a z)

lemma foldl_min_le_mem (ys : List ℚ) (a x : ℚ) (h : x ∈ ys) : ys.foldl min a ≤ x := by
  induction ys generalizing a with
  | nil => cases h
  | cons z zs ih =>
    rcases List.mem_cons.mp h with h1 | h2
    · subst h1
      exact le_trans (foldl_min_le_init zs (min a x)) (min_le_right a x)
    · exact ih (min a z) h2

lemma listMin_le (l : List ℚ) (x : ℚ) (h : x ∈ l) : listMin l ≤ x := by
  cases l with
  | nil => cases h
  | cons y ys =>
    rcases List.mem_cons.mp h with h1 | h2
    · subst h1; exact foldl_min_le_init ys x
    · exact foldl_min_le_mem ys y x h2

lemma init_le_foldl_max (ys : List ℚ) (a : ℚ) : a ≤ ys.foldl max a := by
  induction ys generalizing a with
  | nil => exact le_refl a
  | cons z zs ih => exact le_trans (le_max_left a z) (ih (max a z))

lemma mem_le_foldl_max (ys : List ℚ) (a x : ℚ) (h : x ∈ ys) : x ≤ ys.foldl max a := by
  induction ys generalizing a with
  | nil => cases h
  | cons z zs ih =>
    rcases List.mem_cons.mp h with h1 | h2
    · subst h1
      exact le_trans (le_max_right a x) (init_le_foldl_max zs (max a x))
    · exact ih (max a z) h2

lemma le_listMax (l : List ℚ) (x : ℚ) (h : x ∈ l) : x ≤ listMax l := by
  cases l with
  | nil => cases h
  | cons y ys =>
    rcases List.mem_cons.mp h with h1 | h2
    · subst h1; exact init_le_foldl_max ys x
    · exact mem_le_foldl_max ys y x h2

/-- C6 (counterexample): on the input `[-1, 100]` the observed maximum is
`100 <= 255`, so the claim predicts division by 255 (giving `[0, 100/255]`
after the clip), but the source requires the observed minimum to be
non-negative for that branch and instead divides by
`max(1, 100) = 100`, giving `[0, 1]`. -/
theorem normalizeBgrFloat_min_branch_counterexample :
    normalizeBgrFloat [-1, 100] = [0, 1] ∧
      normalizeBgrFloatClaimed [-1, 100] = [0, 100 / 255] ∧
      normalizeBgrFloat [-1, 100] ≠ normalizeBgrFloatClaimed [-1, 100] := by
  have hne2 : ([-1, 100] : List ℚ) ≠ [] := by simp
  refine ⟨?_, ?_, ?_⟩
  · simp only [normalizeBgrFloat]
    rw [if_neg hne2]
    norm_num [listMin, listMax, clip01]
  · simp only [normalizeBgrFloatClaimed]
    rw [if_neg hne2]
    norm_num [listMin, listMax, clip01]
  · simp only [normalizeBgrFloat, normalizeBgrFloatClaimed]
    rw [if_neg hne2, if_neg hne2]
    norm_num [listMin, listMax, clip01]

/-- C6 (amended): on a non-empty all-finite float input,
`_normalize_bgr_to_float01` leaves inputs already contained in `[0,1]`
unchanged; for inputs not contained in `[0,1]` it divides by 255 whenever
the observed minimum is non-negative AND the observed maximum is at most
255, and otherwise divides by `max(1, observed maximum)` (not by the
observed maximum itself); integer inputs are divided by their dtype's
(positive) maximum.  A final clip to `[0,1]` is applied in every case. -/
theorem normalizeBgrFloat_spec (l : List ℚ) (hne : l ≠ []) :
    (0 ≤ listMin l ∧ listMax l ≤ 1 → normalizeBgrFloat l = l) ∧
      ((listMin l < 0 ∨ 1 < listMax l) → 0 ≤ listMin l → listMax l ≤ 255 →
        normalizeBgrFloat l = l.map (fun x => clip01 (x / 255))) ∧
      ((listMin l < 0 ∨ 1 < listMax l) → ¬ (0 ≤ listMin l ∧ listMax l ≤ 255) →
        normalizeBgrFloat l = l.map (fun x => clip01 (x / max 1 (listMax l)))) ∧
      (∀ (dtypeMax : ℕ) (li : List ℤ), 0 < dtypeMax → li ≠ [] →
        normalizeBgrInt dtypeMax li = li.map (fun x => clip01 ((x : ℚ) / dtypeMax))) := by
  refine ⟨?_, ?_, ?_, ?_⟩
  · rintro ⟨hmn, hmx⟩
    have hcond : ¬ (listMin l < 0 ∨ 1 < listMax l) := by push_neg; constructor <;> linarith
    simp only [normalizeBgrFloat, hne, if_false, hcond]
    have : ∀ x ∈ l, clip01 x = x := by
      intro x hx
      have h1 : 0 ≤ x := le_trans hmn (listMin_le l x hx)
      have h2 : x ≤ 1 := le_trans (le_listMax l x hx) hmx
      simp [clip01, max_eq_right h1, min_eq_right h2]
    calc (l.map clip01) = l.map id := List.map_congr_left this
    _ = l := List.map_id l
  · intro hout hmn hmx
    have hcond : 0 ≤ listMin l ∧ listMax l ≤ 255 := ⟨hmn, hmx⟩
    simp only [normalizeBgrFloat, hne, if_false, hout, if_true, hcond, and_self,
      List.map_map]
    rfl
  · intro hout hcond
    simp only [normalizeBgrFloat, hne, if_false, hout, if_true, hcond, List.map_map]
    rfl
  · intro dtypeMax li hpos hline
    simp only [normalizeBgrInt, hline, if_false, hpos, if_true, List.map_map]
    rfl

/-- Witness for `normalizeBgrFloat_spec`: `[1/2]` is left unchanged, `[2]`
is divided by 255, `[300]` is divided by `max 1 300 = 300`, and the integer
input `[10]` with dtype maximum 255 is divided by 255. -/
theorem normalizeBgrFloat_spec_witness :
    normalizeBgrFloat [1 / 2] = [1 / 2] ∧
      normalizeBgrFloat [2] = [2].map (fun x => clip01 (x / 255)) ∧
      normalizeBgrFloat [300] = [300].map (fun x => clip01 (x / max 1 (listMax [300]))) ∧
      normalizeBgrInt 255 [10] = [10].map (fun x => clip01 ((x : ℚ) / 255)) := by
  refine ⟨?_, ?_, ?_, ?_⟩
  · exact (normalizeBgrFloat_spec [1 / 2] (by simp)).1 (by norm_num [listMin, listMax])
  · exact (normalizeBgrFloat_spec [2] (by simp)).2.1 (by norm_num [listMin, listMax])
      (by norm_num [listMin]) (by norm_num [listMax])
  · exact (normalizeBgrFloat_spec [300] (by simp)).2.2.1 (by norm_num [listMin, listMax])
      (by norm_num [listMin, listMax])
  · exact (normalizeBgrFloat_spec [1] (by simp)).2.2.2 255 [10] (by norm_num) (by simp)

/-! ## Frame analysis entry point (`analyze_bgr_frame`,
`src/chroma_monitor/analysis/frame_analysis.py`, lines 160-238)

A frame pixel is embedded together with its 8-bit HSV conversion (the
`cv2`/`resize_by_long_edge` preprocessing is a library transformation of the
pixel data and is absorbed into the input; no claim constrains its values).
`bgr = None` is `none`, a zero-size buffer is `some []`.  The optional
cancellation callback may raise, which `Except Unit Bool` captures; the
fixed milestone checks are the five `_is_canceled()` call sites, numbered in
call order. -/

structure FramePix where
  hue : Fin 180
  sat : ℕ
  vv : ℕ
  r : ℕ
  g : ℕ
  b : ℕ
deriving Repr, DecidableEq

/-- `clamp_int` from `src/chroma_monitor/util/functions.py`:
`max(low, min(high, int(value)))`. -/
def clampInt (value low high : ℤ) : ℤ := max low (min high value)

/-- `_is_canceled` inside `analyze_bgr_frame` (lines 174-181): calls the
callback, treating an exception (`.error`) as "not canceled". -/
def isCanceled (cancel : ℕ → Except Unit Bool) (k : ℕ) : Bool :=
  match cancel k with
  | .error _ => false
  | .ok b => b

/-- The result dictionary of `analyze_bgr_frame` (the fields constrained by
the spec; `dt_ms` is always `0.0`, `graph_update` always `True`). -/
structure AnalysisOutput where
  hist : Fin 180 → ℕ
  hHist : Fin 180 → ℕ
  topColors : List (ℚ × ℕ × ℕ × ℕ)
  warmRatio : ℚ
  coolRatio : ℚ
  otherRatio : ℚ
  dtMs : ℚ
  graphUpdate : Bool

/-- Embedding of `analyze_bgr_frame`: raises (`.error`) exactly on a `None`
or zero-size buffer; otherwise returns `.ok none` when canceled at one of
the five milestone checks and `.ok (some result)` when not. -/
def analyzeBgrFrame (bgr : Option (List FramePix)) (wheelSatThreshold : ℤ)
    (cancel : ℕ → Except Unit Bool) : Except String (Option AnalysisOutput) :=
  match bgr with
  | none => .error "empty frame"
  | some frame =>
    if frame = [] then .error "empty frame"
    else if isCanceled cancel 0 then .ok none
    else
      let satTh := clampInt wheelSatThreshold 0 255
      let wheelPix := frame.filter (fun p => decide (satTh ≤ (p.sat : ℤ)))
      if isCanceled cancel 1 then .ok none
      else
        let hs := wheelPix.map (fun p => p.hue)
        let stats := computeWheelStats hs
        let hHist : Fin 180 → ℕ :=
          fun b0 => ((frame.filter (fun p => decide (0 < p.sat))).map (fun p => p.hue)).count b0
        if isCanceled cancel 2 then .ok none
        else
          -- the scatter sample `_sample_sv_and_rgb` is drawn here in the
          -- source (np.random based; its contents are not constrained)
          if isCanceled cancel 3 then .ok none
          else
            let tc := computeTopColors
              (wheelPix.map (fun p => (⟨p.hue, p.r, p.g, p.b⟩ : RgbPix)))
            if isCanceled cancel 4 then .ok none
            else .ok (some
              { hist := stats.1
                hHist := hHist
                topColors := tc
                warmRatio := stats.2.1
                coolRatio := stats.2.2.1
                otherRatio := stats.2.2.2
                dtMs := 0
                graphUpdate := true })

/-- C7: `analyze_bgr_frame` fails the immediate call (raises) exactly when
the buffer is `None` or zero-size; on a valid non-empty buffer it never
raises, returns no result iff the cancellation predicate reports true at one
of the five fixed milestone checks, and otherwise returns a complete result. -/
theorem analyzeBgrFrame_contract (bgr : Option (List FramePix)) (th : ℤ)
    (cancel : ℕ → Except Unit Bool) :
    ((∃ e, analyzeBgrFrame bgr th cancel = .error e) ↔ (bgr = none ∨ bgr = some [])) ∧
      (∀ frame : List FramePix, frame ≠ [] → bgr = some frame →
        ((analyzeBgrFrame bgr th cancel = .ok none) ↔
            ∃ k, k < 5 ∧ isCanceled cancel k = true) ∧
          ((∃ out, analyzeBgrFrame bgr th cancel = .ok (some out)) ↔
            ∀ k, k < 5 → isCanceled cancel k = false)) := by
  constructor
  · constructor
    · rintro ⟨e, he⟩
      match hb : bgr with
      | none => exact Or.inl rfl
      | some frame =>
        by_cases hf : frame = []
        · subst hf; exact Or.inr rfl
        · exfalso
          simp only [analyzeBgrFrame, hf, if_false] at he
          cases h0 : isCanceled cancel 0 <;> rw [h0] at he <;>
            simp only [if_true, if_false, Bool.false_eq_true] at he
          cases h1 : isCanceled cancel 1 <;> rw [h1] at he <;>
            simp only [if_true, if_false, Bool.false_eq_true] at he
          cases h2 : isCanceled cancel 2 <;> rw [h2] at he <;>
            simp only [if_true, if_false, Bool.false_eq_true] at he
          cases h3 : isCanceled cancel 3 <;> rw [h3] at he <;>
            simp only [if_true, if_false, Bool.false_eq_true] at he
          cases h4 : isCanceled cancel 4 <;> rw [h4] at he <;>
            simp only [if_true, if_false, Bool.false_eq_true] at he
          all_goals exact Except.noConfusion he
    · rintro (hb | hb) <;> subst hb
      · exact ⟨"empty frame", rfl⟩
      · exact ⟨"empty frame", rfl⟩
  · rintro frame hf rfl
    constructor
    · constructor
      · intro hres
        by_contra hno
        push_neg at hno
        have h0 : isCanceled cancel 0 = false := by
          cases h : isCanceled cancel 0 with
          | false => rfl
          | true => exact absurd h (by simpa using hno 0 (by norm_num))
        have h1 : isCanceled cancel 1 = false := by
          cases h : isCanceled cancel 1 with
          | false => rfl
          | true => exact absurd h (by simpa using hno 1 (by norm_num))
        have h2 : isCanceled cancel 2 = false := by
          cases h : isCanceled cancel 2 with
          | false => rfl
          | true => exact absurd h (by simpa using hno 2 (by norm_num))
        have h3 : isCanceled cancel 3 = false := by
          cases h : isCanceled cancel 3 with
          | false => rfl
          | true => exact absurd h (by simpa using hno 3 (by norm_num))
        have h4 : isCanceled cancel 4 = false := by
          cases h : isCanceled cancel 4 with
          | false => rfl
          | true => exact absurd h (by simpa using hno 4 (by norm_num))
        simp only [analyzeBgrFrame, hf, if_false, h0, h1, h2, h3, h4,
          Bool.false_eq_true] at hres
        exact Option.noConfusion (Except.ok.inj hres)
      · rintro ⟨k, hk, hck⟩
        simp only [analyzeBgrFrame, hf, if_false]
        interval_cases k
        · simp [hck]
        · cases h0 : isCanceled cancel 0 <;> simp [hck]
        · cases h0 : isCanceled cancel 0 <;> cases h1 : isCanceled cancel 1 <;> simp [hck]
        · cases h0 : isCanceled cancel 0 <;> cases h1 : isCanceled cancel 1 <;>
            cases h2 : isCanceled cancel 2 <;> simp [hck]
        · cases h0 : isCanceled cancel 0 <;> cases h1 : isCanceled cancel 1 <;>
            cases h2 : isCanceled cancel 2 <;> cases h3 : isCanceled cancel 3 <;> simp [hck]
    · constructor
      · rintro ⟨out, hout⟩ k hk
        by_contra hck
        have hck' : isCanceled cancel k = true := by
          cases h : isCanceled cancel k with
          | false => exact absurd h hck
          | true => rfl
        simp only [analyzeBgrFrame, hf, if_false] at hout
        interval_cases k <;> rw [hck'] at hout <;>
          [skip;
            (cases h0 : isCanceled cancel 0 <;> rw [h0] at hout);
            (cases h0 : isCanceled cancel 0 <;> rw [h0] at hout <;>
              first
                | (cases h1 : isCanceled cancel 1 <;> rw [h1] at hout)
                | skip);
            (cases h0 : isCanceled cancel 0 <;> rw [h0] at hout <;>
              first
                | (cases h1 : isCanceled cancel 1 <;> rw [h1] at hout <;>
                    first
                      | (cases h2 : isCanceled cancel 2 <;> rw [h2] at hout)
                      | skip)
                | skip);
            (cases h0 : isCanceled cancel 0 <;> rw [h0] at hout <;>
              first
                | (cases h1 : isCanceled cancel 1 <;> rw [h1] at hout <;>
                    first
                      | (cases h2 : isCanceled cancel 2 <;> rw [h2] at hout <;>
                          first
                            | (cases h3 : isCanceled cancel 3 <;> rw [h3] at hout)
                            | skip)
                      | skip)
                | skip)] <;>
          simp at hout
      · intro hall
        have h0 := hall 0 (by norm_num)
        have h1 := hall 1 (by norm_num)
        have h2 := hall 2 (by norm_num)
        have h3 := hall 3 (by norm_num)
        have h4 := hall 4 (by norm_num)
        simp only [analyzeBgrFrame, hf, if_false, h0, h1, h2, h3, h4, Bool.false_eq_true]
        exact ⟨_, rfl⟩

/-- Witness for `analyzeBgrFrame_contract`: a one-pixel buffer with a
never-canceling callback produces a complete result. -/
theorem analyzeBgrFrame_contract_witness :
    ∃ out, analyzeBgrFrame (some [⟨0, 5, 5, 1, 2, 3⟩]) 1 (fun _ => .ok false) =
      .ok (some out) :=
  ((analyzeBgrFrame_contract (some [⟨0, 5, 5, 1, 2, 3⟩]) 1 (fun _ => .ok false)).2
    [⟨0, 5, 5, 1, 2, 3⟩] (by simp) rfl).2.mpr (fun _ _ => rfl)

/-- C10: a cancellation callback that raises on every call is swallowed by
`_is_canceled` and treated as "not canceled": on a valid non-empty buffer
the analysis still returns a complete result. -/
theorem analyzeBgrFrame_throwing_cancel (frame : List FramePix) (th : ℤ)
    (cancel : ℕ → Except Unit Bool) (hne : frame ≠ [])
    (hthrow : ∀ k, cancel k = .error ()) :
    ∃ out, analyzeBgrFrame (some frame) th cancel = .ok (some out) := by
  have h0 : isCanceled cancel 0 = false := by simp [isCanceled, hthrow 0]
  have h1 : isCanceled cancel 1 = false := by simp [isCanceled, hthrow 1]
  have h2 : isCanceled cancel 2 = false := by simp [isCanceled, hthrow 2]
  have h3 : isCanceled cancel 3 = false := by simp [isCanceled, hthrow 3]
  have h4 : isCanceled cancel 4 = false := by simp [isCanceled, hthrow 4]
  simp only [analyzeBgrFrame, hne, if_false, h0, h1, h2, h3, h4, Bool.false_eq_true]
  exact ⟨_, rfl⟩

/-- Witness for `analyzeBgrFrame_throwing_cancel`: concrete one-pixel buffer
with an always-raising callback. -/
theorem analyzeBgrFrame_throwing_cancel_witness :
    ∃ out, analyzeBgrFrame (some [⟨7, 9, 9, 4, 5, 6⟩]) 2 (fun _ => .error ()) =
      .ok (some out) :=
  analyzeBgrFrame_throwing_cancel [⟨7, 9, 9, 4, 5, 6⟩] 2 (fun _ => .error ())
    (by simp) (fun _ => rfl)

/-! ## Logical/native coordinate mapping
(`AnalyzerWorker._logical_rect_to_native` /
`AnalyzerWorker._native_rect_to_logical`,
`src/chroma_monitor/analyzer.py`, lines 419-508)

Qt rectangles and mss monitor dicts both carry integer
left/top/width/height; point coordinates flow through the mapping as Python
floats, embedded as `ℚ`.  A screen is identified with its geometry rectangle
and the screen-to-monitor mapping is an association list, iterated in
insertion order like the Python dict.  `Python round` (used via
`int(round(x))`) rounds half to even. -/

structure RectI where
  left : ℤ
  top : ℤ
  width : ℤ
  height : ℤ
deriving Repr, DecidableEq

/-- Python `round` to an integer: round half to even. -/
def pyRound (x : ℚ) : ℤ :=
  let f := Int.floor x
  let r := x - f
  if r < 1 / 2 then f
  else if 1 / 2 < r then f + 1
  else if Even f then f else f + 1

/-- Qt `QRect.contains` on an integer point (`right = left + width - 1`),
used by `QGuiApplication.screenAt`. -/
def rectContainsPoint (g : RectI) (x y : ℤ) : Bool :=
  decide (g.left ≤ x) && decide (x ≤ g.left + g.width - 1) &&
    decide (g.top ≤ y) && decide (y ≤ g.top + g.height - 1)

/-- Embedding of `_logical_point_to_native`: resolve the screen containing
the rounded point (falling back to the first screen), look its monitor up in
the mapping, and scale relative to the screen geometry with
`sx = mon.width / max(1, g.width)`. -/
def logicalPointToNative (screens : List RectI) (mapping : List (RectI × RectI))
    (x y : ℚ) : ℚ × ℚ :=
  let found := screens.find? (fun g => rectContainsPoint g (pyRound x) (pyRound y))
  let screen? := match found with
    | some g => some g
    | none => screens.head?
  match screen? with
  | none => (x, y)
  | some g =>
    match mapping.find? (fun sm => decide (sm.1 = g)) with
    | none => (x, y)
    | some sm =>
      let mon := sm.2
      let gw : ℚ := max 1 (g.width : ℚ)
      let gh : ℚ := max 1 (g.height : ℚ)
      let sx := (mon.width : ℚ) / gw
      let sy := (mon.height : ℚ) / gh
      ((mon.left : ℚ) + (x - (g.left : ℚ)) * sx, (mon.top : ℚ) + (y - (g.top : ℚ)) * sy)

/-- The monitor-containment test of `_native_point_to_logical`:
`left <= x < right` and `top <= y < bottom` on float coordinates. -/
def monContainsPoint (mon : RectI) (x y : ℚ) : Bool :=
  decide ((mon.left : ℚ) ≤ x) && decide (x < (mon.left : ℚ) + (mon.width : ℚ)) &&
    decide ((mon.top : ℚ) ≤ y) && decide (y < (mon.top : ℚ) + (mon.height : ℚ))

/-- The nearest-center fallback loop of `_native_point_to_logical` (the
source updates `best` when `best is None or dist < best_dist`). -/
def nearestByCenter (mapping : List (RectI × RectI)) (x y : ℚ) :
    Option (RectI × RectI) :=
  (mapping.foldl (fun acc sm =>
    let cx := (sm.2.left : ℚ) + (sm.2.width : ℚ) * (1 / 2)
    let cy := (sm.2.top : ℚ) + (sm.2.height : ℚ) * (1 / 2)
    let dist := (x - cx) ^ 2 + (y - cy) ^ 2
    match acc with
    | none => some (sm, dist)
    | some (best, bestDist) =>
      if dist < bestDist then some (sm, dist) else some (best, bestDist))
    none).map Prod.fst

/-- Embedding of `_native_point_to_logical`: find the monitor containing the
point (else the nearest by center distance) and scale back with
`g.width / max(1, mon.width)`. -/
def nativePointToLogical (mapping : List (RectI × RectI)) (x y : ℚ) : ℚ × ℚ :=
  let hit := mapping.find? (fun sm => monContainsPoint sm.2 x y)
  let target? := match hit with
    | some sm => some sm
    | none => nearestByCenter mapping x y
  match target? with
  | none => (x, y)
  | some sm =>
    let g := sm.1
    let mon := sm.2
    let mw : ℚ := max 1 (mon.width : ℚ)
    let mh : ℚ := max 1 (mon.height : ℚ)
    ((g.left : ℚ) + (x - (mon.left : ℚ)) * ((g.width : ℚ) / mw),
      (g.top : ℚ) + (y - (mon.top : ℚ)) * ((g.height : ℚ) / mh))

/-- Embedding of `_logical_rect_to_native`: map the two corner points and
rebuild the rectangle with `left = round(min(x1,x2))`,
`width = max(1, round(abs(x2-x1)))`. -/
def logicalRectToNative (screens : List RectI) (mapping : List (RectI × RectI))
    (rect : RectI) : RectI :=
  if mapping = [] then rect
  else
    let p1 := logicalPointToNative screens mapping (rect.left : ℚ) (rect.top : ℚ)
    let p2 := logicalPointToNative screens mapping
      ((rect.left : ℚ) + (rect.width : ℚ)) ((rect.top : ℚ) + (rect.height : ℚ))
    { left := pyRound (min p1.1 p2.1)
      top := pyRound (min p1.2 p2.2)
      width := max 1 (pyRound |p2.1 - p1.1|)
      height := max 1 (pyRound |p2.2 - p1.2|) }

/-- Embedding of `_native_rect_to_logical` (same corner construction in the
opposite direction). -/
def nativeRectToLogical (mapping : List (RectI × RectI)) (rect : RectI) : RectI :=
  if mapping = [] then rect
  else
    let p1 := nativePointToLogical mapping (rect.left : ℚ) (rect.top : ℚ)
    let p2 := nativePointToLogical mapping
      ((rect.left : ℚ) + (rect.width : ℚ)) ((rect.top : ℚ) + (rect.height : ℚ))
    { left := pyRound (min p1.1 p2.1)
      top := pyRound (min p1.2 p2.2)
      width := max 1 (pyRound |p2.1 - p1.1|)
      height := max 1 (pyRound |p2.2 - p1.2|) }

lemma pyRound_intCast (n : ℤ) : pyRound ((n : ℤ) : ℚ) = n := by
  unfold pyRound
  rw [Int.floor_intCast]
  norm_num

lemma lpn_single_id (S : RectI) (hw : 1 ≤ S.width) (hh : 1 ≤ S.height) (x y : ℚ) :
    logicalPointToNative [S] [(S, S)] x y = (x, y) := by
  have hWpos : (0 : ℚ) < (S.width : ℚ) := by exact_mod_cast lt_of_lt_of_le Int.zero_lt_one hw
  have hHpos : (0 : ℚ) < (S.height : ℚ) := by exact_mod_cast lt_of_lt_of_le Int.zero_lt_one hh
  have hgw : max 1 ((S.width : ℚ)) = (S.width : ℚ) := max_eq_right (by exact_mod_cast hw)
  have hgh : max 1 ((S.height : ℚ)) = (S.height : ℚ) := max_eq_right (by exact_mod_cast hh)
  cases hc : rectContainsPoint S (pyRound x) (pyRound y) <;>
    · simp only [logicalPointToNative, List.find?, hc, List.head?, eq_self_iff_true,
        decide_True]
      simp only [hgw, hgh, div_self hWpos.ne', div_self hHpos.ne', mul_one, Prod.mk.injEq]
      constructor <;> ring

lemma npl_single_id (S : RectI) (hw : 1 ≤ S.width) (hh : 1 ≤ S.height) (x y : ℚ) :
    nativePointToLogical [(S, S)] x y = (x, y) := by
  have hWpos : (0 : ℚ) < (S.width : ℚ) := by exact_mod_cast lt_of_lt_of_le Int.zero_lt_one hw
  have hHpos : (0 : ℚ) < (S.height : ℚ) := by exact_mod_cast lt_of_lt_of_le Int.zero_lt_one hh
  have hmw : max 1 ((S.width : ℚ)) = (S.width : ℚ) := max_eq_right (by exact_mod_cast hw)
  have hmh : max 1 ((S.height : ℚ)) = (S.height : ℚ) := max_eq_right (by exact_mod_cast hh)
  cases hc : monContainsPoint S x y <;>
    · simp only [nativePointToLogical, List.find?, hc, nearestByCenter, List.foldl,
        Option.map_some, Option.map]
      simp only [hmw, hmh, div_self hWpos.ne', div_self hHpos.ne', mul_one, Prod.mk.injEq]
      constructor <;> ring

lemma l2n_single_id (S r : RectI) (hw : 1 ≤ S.width) (hh : 1 ≤ S.height)
    (hrw : 1 ≤ r.width) (hrh : 1 ≤ r.height) :
    logicalRectToNative [S] [(S, S)] r = r := by
  have h1 := lpn_single_id S hw hh (r.left : ℚ) (r.top : ℚ)
  have h2 := lpn_single_id S hw hh ((r.left : ℚ) + (r.width : ℚ)) ((r.top : ℚ) + (r.height : ℚ))
  have hwQ : (0 : ℚ) ≤ (r.width : ℚ) := by exact_mod_cast le_trans zero_le_one hrw
  have hhQ : (0 : ℚ) ≤ (r.height : ℚ) := by exact_mod_cast le_trans zero_le_one hrh
  simp only [logicalRectToNative, if_neg (by simp : ¬ ([(S, S)] = [])), h1, h2]
  have hminx : min ((r.left : ℚ)) ((r.left : ℚ) + (r.width : ℚ)) = (r.left : ℚ) :=
    min_eq_left (by linarith)
  have hminy : min ((r.top : ℚ)) ((r.top : ℚ) + (r.height : ℚ)) = (r.top : ℚ) :=
    min_eq_left (by linarith)
  have habsx : |(r.left : ℚ) + (r.width : ℚ) - (r.left : ℚ)| = (r.width : ℚ) := by
    rw [add_sub_cancel_left]
    exact abs_of_nonneg hwQ
  have habsy : |(r.top : ℚ) + (r.height : ℚ) - (r.top : ℚ)| = (r.height : ℚ) := by
    rw [add_sub_cancel_left]
    exact abs_of_nonneg hhQ
  simp only [hminx, hminy, habsx, habsy, pyRound_intCast, max_eq_right hrw, max_eq_right hrh]

lemma n2l_single_id (S r : RectI) (hw : 1 ≤ S.width) (hh : 1 ≤ S.height)
    (hrw : 1 ≤ r.width) (hrh : 1 ≤ r.height) :
    nativeRectToLogical [(S, S)] r = r := by
  have h1 := npl_single_id S hw hh (r.left : ℚ) (r.top : ℚ)
  have h2 := npl_single_id S hw hh ((r.left : ℚ) + (r.width : ℚ)) ((r.top : ℚ) + (r.height : ℚ))
  have hwQ : (0 : ℚ) ≤ (r.width : ℚ) := by exact_mod_cast le_trans zero_le_one hrw
  have hhQ : (0 : ℚ) ≤ (r.height : ℚ) := by exact_mod_cast le_trans zero_le_one hrh
  simp only [nativeRectToLogical, if_neg (by simp : ¬ ([(S, S)] = [])), h1, h2]
  have hminx : min ((r.left : ℚ)) ((r.left : ℚ) + (r.width : ℚ)) = (r.left : ℚ) :=
    min_eq_left (by linarith)
  have hminy : min ((r.top : ℚ)) ((r.top : ℚ) + (r.height : ℚ)) = (r.top : ℚ) :=
    min_eq_left (by linarith)
  have habsx : |(r.left : ℚ) + (r.width : ℚ) - (r.left : ℚ)| = (r.width : ℚ) := by
    rw [add_sub_cancel_left]
    exact abs_of_nonneg hwQ
  have habsy : |(r.top : ℚ) + (r.height : ℚ) - (r.top : ℚ)| = (r.height : ℚ) := by
    rw [add_sub_cancel_left]
    exact abs_of_nonneg hhQ
  simp only [hminx, hminy, habsx, habsy, pyRound_intCast, max_eq_right hrw, max_eq_right hrh]

/-- C8: in a configuration with one logical screen paired to one native
monitor of identical geometry (scale factor 1.0), mapping a rectangle of
positive size to native coordinates and back returns it exactly (in
particular within the claimed 1-pixel tolerance per coordinate). -/
theorem rect_roundtrip_single_monitor (S r : RectI) (hw : 1 ≤ S.width)
    (hh : 1 ≤ S.height) (hrw : 1 ≤ r.width) (hrh : 1 ≤ r.height) :
    nativeRectToLogical [(S, S)] (logicalRectToNative [S] [(S, S)] r) = r := by
  rw [l2n_single_id S r hw hh hrw hrh, n2l_single_id S r hw hh hrw hrh]

/-- Witness for `rect_roundtrip_single_monitor`: a 1920×1080 screen at the
origin and the rectangle (100, 200, 300, 400). -/
theorem rect_roundtrip_single_monitor_witness :
    nativeRectToLogical [(⟨0, 0, 1920, 1080⟩, ⟨0, 0, 1920, 1080⟩)]
        (logicalRectToNative [⟨0, 0, 1920, 1080⟩]
          [(⟨0, 0, 1920, 1080⟩, ⟨0, 0, 1920, 1080⟩)] ⟨100, 200, 300, 400⟩) =
      ⟨100, 200, 300, 400⟩ :=
  rect_roundtrip_single_monitor ⟨0, 0, 1920, 1080⟩ ⟨100, 200, 300, 400⟩
    (by norm_num) (by norm_num) (by norm_num) (by norm_num)

/-! ## Screen-region capture (`AnalyzerWorker._capture_screen_region`,
`src/chroma_monitor/analyzer.py`, lines 653-685)

The virtual screen `sct.monitors[0]` and the requested rectangle are integer
rectangles; `sct.grab` is a parameter that may raise (`ScreenShotError`,
embedded as `.error`).  The source's Japanese status strings are rendered by
short English placeholders ("region off-screen" for
「領域が画面外です…」, "screen capture failed" for
「画面キャプチャに失敗しました…」). -/

/-- The default centred ROI created when no capture rectangle is set:
`C.DEFAULT_ROI_SIZE = (640, 360)` around the virtual-screen centre
(Python `//` is floor division). -/
def defaultScreenRoi (vmon : RectI) : RectI :=
  let cx := vmon.left + Int.fdiv vmon.width 2
  let cy := vmon.top + Int.fdiv vmon.height 2
  ⟨cx - 320, cy - 180, 640, 360⟩

/-- The clip of the requested rectangle to the virtual screen bounds
(`left/top = max`, `right/bottom = min`, width/height by subtraction,
possibly non-positive). -/
def clipToVirtualScreen (vmon cap : RectI) : RectI :=
  let left := max cap.left vmon.left
  let top := max cap.top vmon.top
  let right := min (cap.left + cap.width) (vmon.left + vmon.width)
  let bottom := min (cap.top + cap.height) (vmon.top + vmon.height)
  ⟨left, top, right - left, bottom - top⟩

/-- Embedding of `_capture_screen_region`: returns the `(frame, rect,
error-message)` triple of the source. -/
def captureScreenRegion {α : Type} (vmon : RectI) (roiAbs : Option RectI)
    (grab : RectI → Except Unit α) : Option α × Option RectI × Option String :=
  let cap := match roiAbs with
    | some c => c
    | none => defaultScreenRoi vmon
  let c := clipToVirtualScreen vmon cap
  if c.width ≤ 1 ∨ c.height ≤ 1 then
    (none, none, some "region off-screen")
  else
    match grab c with
    | .error _ => (none, none, some "screen capture failed")
    | .ok img => (some img, some c, none)

/-- C9: `_capture_screen_region` first clips the requested rectangle to the
virtual screen; whenever the clipped rectangle is narrower or shorter than
2 pixels it returns a failure triple (no frame, descriptive message) without
consulting the grab function at all, and only otherwise does it grab (the
result then being the grabbed frame with the clipped rectangle, or the
capture-failure message if the grab raises). -/
theorem captureScreenRegion_clip_guard {α : Type} (vmon cap : RectI)
    (grab : RectI → Except Unit α) :
    ((clipToVirtualScreen vmon cap).width < 2 ∨ (clipToVirtualScreen vmon cap).height < 2 →
      captureScreenRegion vmon (some cap) grab = (none, none, some "region off-screen")) ∧
      (2 ≤ (clipToVirtualScreen vmon cap).width ∧ 2 ≤ (clipToVirtualScreen vmon cap).height →
        captureScreenRegion vmon (some cap) grab =
          match grab (clipToVirtualScreen vmon cap) with
          | .error _ => (none, none, some "screen capture failed")
          | .ok img => (some img, some (clipToVirtualScreen vmon cap), none)) := by
  constructor
  · intro h
    simp only [captureScreenRegion]
    rw [if_pos (by omega)]
  · intro h
    simp only [captureScreenRegion]
    rw [if_neg (by omega)]

/-- Witness for `captureScreenRegion_clip_guard`: a request entirely
off-screen fails with the descriptive message, and an on-screen request is
grabbed and returned with its clipped rectangle. -/
theorem captureScreenRegion_clip_guard_witness :
    captureScreenRegion (⟨0, 0, 100, 100⟩ : RectI) (some ⟨200, 200, 50, 50⟩)
        (fun _ => (.ok 0 : Except Unit ℕ)) = (none, none, some "region off-screen") ∧
      captureScreenRegion (⟨0, 0, 100, 100⟩ : RectI) (some ⟨10, 10, 20, 20⟩)
        (fun _ => (.ok 0 : Except Unit ℕ)) =
        (some 0, some (clipToVirtualScreen ⟨0, 0, 100, 100⟩ ⟨10, 10, 20, 20⟩), none) := by
  constructor
  · exact (captureScreenRegion_clip_guard ⟨0, 0, 100, 100⟩ ⟨200, 200, 50, 50⟩
      (fun _ => (.ok 0 : Except Unit ℕ))).1 (by decide)
  · have h := (captureScreenRegion_clip_guard ⟨0, 0, 100, 100⟩ ⟨10, 10, 20, 20⟩
      (fun _ => (.ok 0 : Except Unit ℕ))).2 (by decide)
    rw [h]

/-- Witness for `inflight_at_most_one`: two consecutive publish-wanting
cycles without acknowledgment leave at most one unacknowledged result, and a
concrete publishing step starts with the flag clear and sets it. -/
theorem inflight_at_most_one_witness :
    (inflightRun inflightInit [.cycle true, .cycle true]).unacked ≤ 1 ∧
      ((⟨false, 0⟩ : InflightState).inflight = false ∧
        (inflightStep ⟨false, 0⟩ (.cycle true)).inflight = true) :=
  ⟨(inflight_at_most_one [.cycle true, .cycle true]).1,
    (inflight_at_most_one []).2 ⟨false, 0⟩ true rfl⟩

end ChromaMonitor
